import Mathlib

/-!
Shallow embedding of `src/index.js` (blogz: `readBlogSync`), a synchronous
pipeline that reads a directory of content files and assembles a blog corpus.

Modelling conventions:
* Points in time are `Int` timestamps (milliseconds since the epoch).  The
  source sorts by comparing `Date.prototype.toISOString()` strings; that
  text is reconstructed here (`isoChars`: proleptic-Gregorian civil date,
  fixed `YYYY` years for 0000-9999 and expanded `±YYYYYY` years outside,
  per the ECMAScript Date Time String Format) and compared as JS compares
  strings (code-unit lexicographic, `charListLE`).  For dates in years
  0000-9999 this order coincides with the timestamp order; for
  expanded-format years it does not, and the development tracks that
  faithfully.  `new Date(x)` re-normalisation (src line 173) is the
  identity on an already-resolved timestamp.
* The external collaborators the spec declares out of scope (markdown and
  textile renderers, HTML escaper, JSON/YAML/INI decoders, moment formatters,
  data2xml) are parameters gathered in `Env`; they are arbitrary functions.
  Decoders yield a `MetaOverlay` whose `date` is already resolved to a
  timestamp; fields other than title/date/tags are opaque pass-through in the
  source and are not needed by any property here.
* The filesystem is a value `FS`: the directory listing, a directory
  predicate, and a read function from filename to contents (the source always
  reads `contentDir + '/' + filename`; the `contentDir` prefix is constant
  across one invocation, so `read` is keyed by the bare filename).
* JavaScript objects used as accumulating maps become association lists in
  insertion order.  (JS enumerates integer-like string keys first; no
  property below inspects key enumeration order, only membership and the
  bucket contents.)
* `console.warn` + `process.exit(2)` (JSON decode failure), `throw` (YAML
  decode failure, config errors) all abort the invocation without producing
  a corpus; they are embedded as `Except BlogErr`, the error value carrying
  what the abort observably reports (the offending filename for decode
  errors).
* The source samples the clock twice: `new Date()` at line 69 and `moment()`
  at line 280 (the Atom `updated` field).  The pipeline here takes the
  current time as the single parameter `now` used at both sites, matching
  the spec's "fixed current time".
-/

namespace Blogz

abbrev Time := Int

/-- A decoded structured-metadata overlay (JSON/YAML/INI file contents):
recognized keys `title`, `date`, `tags`; a missing field is `none`. -/
structure MetaOverlay where
  title : Option String := none
  date : Option Time := none
  tags : Option (List String) := none
  deriving Repr, DecidableEq

/-- The resolved metadata record of a post (src lines 105-114, 176-182). -/
structure Meta where
  title : String
  date : Time
  year : String
  month : String
  day : String
  monthname : String
  tags : List String
  deriving Repr, DecidableEq

/-- One post.  `prev`/`next` are references to the chronologically adjacent
posts, embedded by their (unique) `name`. -/
structure Post where
  name : String
  meta : Meta
  content : String
  html : String
  prev : Option String := none
  next : Option String := none
  deriving Repr, DecidableEq

/-- The caller-supplied configuration record (src `opts`): `none` models an
absent key. -/
structure Opts where
  domain : Option String := none
  contentDir : Option String := none
  title : Option String := none
  description : Option String := none
  base : Option String := none
  latestCount : Option Nat := none
  indexCount : Option Nat := none

/-- Generic data value fed to the `data2xml` collaborator.  The key "@" holds
the attribute object and "#" the element text, per the source's
`attrProp`/`valProp` configuration (src lines 22-25). -/
inductive XVal where
  | s : String → XVal
  | n : Int → XVal
  | arr : List XVal → XVal
  | obj : List (String × XVal) → XVal

/-- The external collaborators, treated as arbitrary pure functions. -/
structure Env where
  marked : String → String
  textile : String → String
  escapeHtml : String → String
  jsonParse : String → Except String MetaOverlay
  yamlLoad : String → Except String MetaOverlay
  iniDecode : String → MetaOverlay
  fmtYYYY : Time → String
  fmtMM : Time → String
  fmtDD : Time → String
  fmtMMMM : Time → String
  fmtRFC822 : Time → String
  fmtISO : Time → String
  data2xml : String → XVal → String

/-- The filesystem snapshot under `contentDir`. -/
structure FS where
  listing : List String
  isDir : String → Bool
  read : String → String

/-- Abort reasons; each decode error carries the offending filename the
source reports before aborting. -/
inductive BlogErr where
  | config : String → BlogErr
  | jsonDecode : String → String → BlogErr
  | yamlDecode : String → String → BlogErr
  deriving Repr, DecidableEq

/-- The returned corpus record (src lines 314-323). -/
structure Corpus where
  posts : List Post
  post : List (String × Post)
  pages : List Post
  latest : List Post
  archive : List (String × List (String × List Post))
  tagged : List (String × List Post)
  rss : String
  atom : String
  deriving Repr, Inhabited

/-- src lines 38-46: the recognized extensions. -/
def validExt (e : String) : Bool :=
  e == "md" || e == "textile" || e == "txt" || e == "html" ||
  e == "json" || e == "yaml" || e == "ini"

/-- JavaScript `str.split(sep)` for a single-character separator, on the
character list.  Splitting the empty string yields `[""]`, a trailing
separator yields a trailing empty segment, exactly as in JS. -/
def splitChar (sep : Char) : List Char → List (List Char)
  | [] => [[]]
  | c :: cs =>
      match splitChar sep cs with
      | r :: rs => if c = sep then [] :: r :: rs else (c :: r) :: rs
      | [] => [[c]]

/-- JavaScript `str.split(sep)` as a `String` operation. -/
def jsSplit (sep : Char) (s : String) : List String :=
  (splitChar sep s.data).map String.mk

/-- `str.substr(0,1).toUpperCase() + str.substr(1)` (src line 106). -/
def ucfirst (s : String) : String :=
  match s.data with
  | [] => s
  | c :: cs => String.mk (c.toUpper :: cs)

/-- Default title: split the basename on hyphens, capitalize each word, join
with spaces (src line 106). -/
def defaultTitle (basename : String) : String :=
  String.intercalate " " ((jsSplit '-' basename).map ucfirst)

/-- The ordering-prefix strip (src lines 95-97): the basename is matched
against the anchored pattern "one or more digits then a hyphen" and, when it
matches, that prefix is removed.  Greedy digits followed by a literal hyphen
match exactly when the maximal leading digit run is nonempty and the next
character is a hyphen. -/
def stripNumOrder (s : String) : String :=
  match s.data.takeWhile Char.isDigit, s.data.dropWhile Char.isDigit with
  | _ :: _, '-' :: rest => String.mk rest
  | _, _ => s

/-- The default post synthesized on first sight of an identifier
(src lines 103-117). -/
def defaultPost (env : Env) (now : Time) (basename : String) : Post :=
  { name := basename
    meta :=
      { title := defaultTitle basename
        date := now
        year := env.fmtYYYY now
        month := env.fmtMM now
        day := env.fmtDD now
        monthname := env.fmtMMMM now
        tags := [] }
    content := ""
    html := "" }

/-- `xtend({}, meta, overlay)`: shallow per-field replacement, the overlay
winning where present. -/
def mergeMeta (m : Meta) (o : MetaOverlay) : Meta :=
  { m with
    title := o.title.getD m.title
    date := o.date.getD m.date
    tags := o.tags.getD m.tags }

abbrev PostMap := List (String × Post)

/-- `post[basename] = post[basename] || default` (src line 103): insert the
default at the end on first sight, keep the map otherwise. -/
def ensurePost (m : PostMap) (k : String) (d : Post) : PostMap :=
  if (m.lookup k).isSome then m else m ++ [(k, d)]

/-- In-place update of the entry at key `k`. -/
def updatePost (m : PostMap) (k : String) (f : Post → Post) : PostMap :=
  m.map fun kv => if kv.1 = k then (kv.1, f kv.2) else kv

/-- Process one file into the accumulating identifier→Post map
(src lines 80-161). -/
def processFile (env : Env) (fs : FS) (now : Time) (m : PostMap)
    (filename : String) : Except BlogErr PostMap :=
  let parts := jsSplit '.' filename
  let basename0 := parts.headD ""
  match parts[1]? with
  | none => .ok m
  | some ext =>
    if !validExt ext then .ok m
    else
      let basename := stripNumOrder basename0
      let m := ensurePost m basename (defaultPost env now basename)
      let contents := fs.read filename
      -- The source tests `ext` against each literal with independent `if`s
      -- (src lines 122-160); since the tested literals are pairwise
      -- distinct, at most one branch fires, so the dispatch is an
      -- if-else chain.
      if ext == "json" then
        match env.jsonParse contents with
        | .ok o =>
            .ok (updatePost m basename fun p =>
              { p with meta := mergeMeta p.meta o })
        | .error e => .error (.jsonDecode filename e)
      else if ext == "yaml" then
        match env.yamlLoad contents with
        | .ok o =>
            .ok (updatePost m basename fun p =>
              { p with meta := mergeMeta p.meta o })
        | .error e => .error (.yamlDecode filename e)
      else if ext == "ini" then
        .ok (updatePost m basename fun p =>
          { p with meta := mergeMeta p.meta (env.iniDecode contents) })
      else if ext == "html" then
        .ok (updatePost m basename fun p =>
          { p with content := contents, html := contents })
      else if ext == "md" then
        .ok (updatePost m basename fun p =>
          { p with content := contents, html := env.marked contents })
      else if ext == "textile" then
        .ok (updatePost m basename fun p =>
          { p with content := contents, html := env.textile contents })
      else if ext == "text" then
        -- src line 157 tests the literal 'text', which is NOT a member of
        -- validExt (that lists 'txt'), so this branch is dead code: no
        -- filename reaches it.
        .ok (updatePost m basename fun p =>
          { p with content := contents,
                   html := "<pre>" ++ env.escapeHtml contents ++ "</pre>" })
      else
        -- ext == "txt": recognized by validExt but matching none of the
        -- dispatch tests, the file only materializes the default post.
        .ok m

/-- The per-file loop (src line 80, `files.forEach`): each file is folded
into the accumulating map; a fatal decode error aborts the run. -/
def processFilesFrom (env : Env) (fs : FS) (now : Time) :
    List String → PostMap → Except BlogErr PostMap
  | [], m => .ok m
  | f :: files, m =>
      match processFile env fs now m f with
      | .ok m' => processFilesFrom env fs now files m'
      | .error e => .error e

def processFiles (env : Env) (fs : FS) (now : Time)
    (files : List String) : Except BlogErr PostMap :=
  processFilesFrom env fs now files []

/-- The normalization pass (src lines 171-183): re-resolve the date and
recompute the derived date-part fields. -/
def normalizePost (env : Env) (p : Post) : Post :=
  let d := p.meta.date
  { p with meta :=
      { p.meta with
        date := d
        year := env.fmtYYYY d
        month := env.fmtMM d
        day := env.fmtDD d
        monthname := env.fmtMMMM d } }

/-- Decimal digits of a `Nat`, most significant first; fuel-structured so
the kernel can evaluate it (the fuel `n + 1` always suffices). -/
def natDigits : Nat → Nat → List Char
  | 0, _ => []
  | fuel + 1, n =>
      if n = 0 then []
      else natDigits fuel (n / 10) ++ [Char.ofNat (48 + n % 10)]

/-- A `Nat` printed in decimal, left-padded with zeros to width `w`. -/
def padNat (w : Nat) (n : Nat) : List Char :=
  let ds := if n = 0 then ['0'] else natDigits (n + 1) n
  List.replicate (w - ds.length) '0' ++ ds

/-- Proleptic-Gregorian civil date (year, month, day) of a day count
relative to 1970-01-01 — the calendar ECMAScript prescribes for time
values (`YearFromTime` etc.); this is the standard `civil_from_days`
computation. -/
def civilFromDays (z0 : Int) : Int × Nat × Nat :=
  let z := z0 + 719468
  let era := z.fdiv 146097
  let doe := (z - era * 146097).toNat
  let yoe := (doe - doe / 1460 + doe / 36524 - doe / 146096) / 365
  let y := (yoe : Int) + era * 400
  let doy := doe - (365 * yoe + yoe / 4 - yoe / 100)
  let mp := (5 * doy + 2) / 153
  let d := doy - (153 * mp + 2) / 5 + 1
  let m := if mp < 10 then mp + 3 else mp - 9
  (if m ≤ 2 then y + 1 else y, m, d)

/-- The `Date.prototype.toISOString()` text of a millisecond time value,
as a character list: `YYYY-MM-DDTHH:mm:ss.sssZ` in UTC, with the year
printed as four digits for years 0000-9999 and in the expanded
`±YYYYYY` form (sign and six digits) outside that range, per the
ECMAScript Date Time String Format. -/
def isoChars (t : Int) : List Char :=
  let d := t.fdiv 86400000
  let r := (t - d * 86400000).toNat
  let c := civilFromDays d
  let y := c.1
  let m := c.2.1
  let day := c.2.2
  let yearPart :=
    if 0 ≤ y ∧ y ≤ 9999 then padNat 4 y.toNat
    else if y < 0 then '-' :: padNat 6 (-y).toNat
    else '+' :: padNat 6 y.toNat
  yearPart ++ '-' :: padNat 2 m ++ '-' :: padNat 2 day ++
    'T' :: padNat 2 (r / 3600000) ++
    ':' :: padNat 2 (r % 3600000 / 60000) ++
    ':' :: padNat 2 (r % 60000 / 1000) ++
    '.' :: padNat 3 (r % 1000) ++ ['Z']

/-- JavaScript string comparison (`<` on strings is code-unit
lexicographic), as a `≤` test on character lists. -/
def charListLE : List Char → List Char → Bool
  | [], _ => true
  | _ :: _, [] => false
  | a :: as, b :: bs =>
      if a.toNat < b.toNat then true
      else if b.toNat < a.toNat then false
      else charListLE as bs

/-- The sort comparator (src lines 191-198): the source compares
`a.meta.date.toISOString()` against `b.meta.date.toISOString()` as
strings, so the order is lexicographic on the ISO texts.  For dates in
years 0000-9999 this coincides with the timestamp order; outside that
range (expanded `±YYYYYY` years) it does not. -/
def dateLE (a b : Post) : Bool :=
  charListLE (isoChars a.meta.date) (isoChars b.meta.date)

/-- Insert `a` into the sorted list `acc`, after every element `le`-below
or equal to it. -/
def insertSorted {α : Type} (le : α → α → Bool) (a : α) : List α → List α
  | [] => [a]
  | b :: bs => if le b a then b :: insertSorted le a bs else a :: b :: bs

/-- A stable sort by the comparator `le`: each element is inserted after
the already-placed elements it ties with, so elements comparing equal keep
their input order — the behaviour of `Array.prototype.sort` (stable per the
ECMAScript spec) with the comparator of src lines 191-198. -/
def stableSort {α : Type} (le : α → α → Bool) (l : List α) : List α :=
  l.foldl (fun acc a => insertSorted le a acc) []

/-- Link a post to its neighbours by position (src lines 203-210). -/
def linkAt (ps : List Post) (i : Nat) (p : Post) : Post :=
  { p with
    prev := if i = 0 then none else (ps[i-1]?).map Post.name
    next := (ps[i+1]?).map Post.name }

def linkPosts (ps : List Post) : List Post :=
  ps.enum.map fun ip => linkAt ps ip.1 ip.2

/-- Append `p` to the bucket at key `k`, creating the bucket at the end on
first use (`x[k] = x[k] || []; x[k].push(p)`). -/
def bucketPush {α : Type} (l : List (String × List α)) (k : String)
    (p : α) : List (String × List α) :=
  match l with
  | [] => [(k, [p])]
  | (k', v) :: rest =>
      if k' = k then (k', v ++ [p]) :: rest
      else (k', v) :: bucketPush rest k p

/-- The year→month→post-list archive (src lines 224-234). -/
def archiveAdd (a : List (String × List (String × List Post))) (p : Post) :
    List (String × List (String × List Post)) :=
  match a with
  | [] => [(p.meta.year, [(p.meta.month, [p])])]
  | (y, months) :: rest =>
      if y = p.meta.year then (y, bucketPush months p.meta.month p) :: rest
      else (y, months) :: archiveAdd rest p

def buildArchive (ps : List Post) :
    List (String × List (String × List Post)) :=
  ps.foldl archiveAdd []

/-- The tag→post-list index (src lines 237-242). -/
def taggedAdd (t : List (String × List Post)) (p : Post) :
    List (String × List Post) :=
  p.meta.tags.foldl (fun t tag => bucketPush t tag p) t

def buildTagged (ps : List Post) : List (String × List Post) :=
  ps.foldl taggedAdd []

/-- One RSS `item` (src lines 258-266). -/
def rssItemX (env : Env) (domain base : String) (p : Post) : XVal :=
  .obj [("title", .s p.meta.title),
        ("description", .s p.html),
        ("link", .s ("http://" ++ domain ++ base ++ "/" ++ p.name)),
        ("guid", .s ("http://" ++ domain ++ base ++ "/" ++ p.name)),
        ("pubDate", .s (env.fmtRFC822 p.meta.date))]

/-- The RSS channel data (src lines 245-266). -/
def rssDataX (env : Env) (title description domain base : String)
    (now : Time) (latest : List Post) : XVal :=
  .obj [("@", .obj [("version", .s "2.0")]),
        ("channel", .obj
          [("title", .s title),
           ("description", .s description),
           ("link", .s ("http://" ++ domain ++ base ++ "/rss20.xml")),
           ("lastBuildDate", .s (env.fmtRFC822 now)),
           ("pubDate", .s (env.fmtRFC822 now)),
           ("ttl", .n 1800),
           ("item", .arr (latest.map (rssItemX env domain base)))])]

/-- One Atom `entry` (src lines 289-310). -/
def atomEntryX (env : Env) (domain base : String) (p : Post) : XVal :=
  .obj [("title", .s p.meta.title),
        ("id", .s ("http://" ++ domain ++ base ++ "/" ++ p.name)),
        ("link", .arr
          [.obj [("@", .obj
            [("href", .s ("http://" ++ domain ++ base ++ "/" ++ p.name))])],
           .obj [("@", .obj
            [("href", .s ("http://" ++ domain ++ base ++ "/" ++ p.name)),
             ("rel", .s "self")])]]),
        ("content", .obj
          [("@", .obj [("type", .s "html")]),
           ("#", .s p.html)]),
        ("updated", .s (env.fmtISO p.meta.date))]

/-- The Atom feed data (src lines 271-310).  `updated` uses the injected
current time (the source re-samples the clock at line 280; with a fixed
current time both samples coincide). -/
def atomDataX (env : Env) (title domain base : String)
    (now : Time) (latest : List Post) : XVal :=
  .obj [("@", .obj [("xmlns", .s "http://www.w3.org/2005/Atom")]),
        ("title", .s title),
        ("link", .obj [("@", .obj
          [("href", .s ("http://" ++ domain ++ base ++ "/atom.xml")),
           ("rel", .s "self")])]),
        ("updated", .s (env.fmtISO now)),
        ("id", .s ("http://" ++ domain ++ "/")),
        ("author", .obj
          [("name", .s "Andrew Chilton"),
           ("email", .s "andychilton@gmail.com")]),
        ("entry", .arr (latest.map (atomEntryX env domain base)))]

/-- The scanner (src lines 73-78): the directory listing with directories
filtered out. -/
def scanFiles (fs : FS) : List String :=
  fs.listing.filter fun f => !fs.isDir f

/-- The identifier→Post map after the normalization pass (src lines
164-183; the posts are shared with the map, so the map holds the
normalized records). -/
def normMap (env : Env) (m0 : PostMap) : PostMap :=
  m0.map fun kv => (kv.1, normalizePost env kv.2)

/-- The published posts: those whose resolved date has passed
(src lines 188-191). -/
def publishedPosts (env : Env) (now : Time) (m0 : PostMap) : List Post :=
  ((normMap env m0).map Prod.snd).filter fun p => decide (p.meta.date < now)

/-- The published posts in ascending date order (src lines 191-198). -/
def sortedPosts (env : Env) (now : Time) (m0 : PostMap) : List Post :=
  stableSort dateLE (publishedPosts env now m0)

/-- The published posts, sorted and wired with `prev`/`next`
(src lines 203-210). -/
def finalPosts (env : Env) (now : Time) (m0 : PostMap) : List Post :=
  linkPosts (sortedPosts env now m0)

/-- Everything after the per-file loop succeeds (src lines 164-323). -/
def assembleCorpus (env : Env) (opts : Opts) (now : Time) (m0 : PostMap) :
    Corpus :=
  let domain := opts.domain.getD ""
  let title := opts.title.getD ""
  let description := opts.description.getD ""
  let base := opts.base.getD ""
  let latestCount := opts.latestCount.getD 10
  let linked := finalPosts env now m0
  let latest := linked.reverse.take latestCount
  { posts := linked
    post := normMap env m0
    pages := []
    latest := latest
    archive := buildArchive linked
    tagged := buildTagged linked
    rss := env.data2xml "rss"
      (rssDataX env title description domain base now latest)
    atom := env.data2xml "feed"
      (atomDataX env title domain base now latest) }

/-- The whole pipeline (src `readBlogSync`, lines 48-324). -/
def readBlogSync (env : Env) (opts : Opts) (fs : FS) (now : Time) :
    Except BlogErr Corpus :=
  -- `!opts.domain` / `!opts.contentDir`: absent or empty string is falsy
  if opts.domain.getD "" == "" then .error (.config "Provide a domain")
  else if opts.contentDir.getD "" == "" then
    .error (.config "Provide a contentDir")
  else
    match processFiles env fs now (scanFiles fs) with
    | .error e => .error e
    | .ok m0 => .ok (assembleCorpus env opts now m0)

/-- The extension the parser dispatches on: the second field of splitting
the filename on every dot (src lines 83-85). -/
def extOf (filename : String) : Option String :=
  (jsSplit '.' filename)[1]?

/-- Structural invariant of the accumulating map: keys are pairwise
distinct and each post's `name` is its key. -/
def goodMap (m : PostMap) : Prop :=
  (m.map Prod.fst).Nodup ∧ ∀ kv ∈ m, kv.2.name = kv.1

/-- Names the corpus of a run known to succeed. -/
def okCorpus (x : Except BlogErr Corpus) : Corpus :=
  match x with
  | .ok c => c
  | .error _ => default

/-! Concrete scenario used to instantiate theorems with hypotheses.  The
collaborator functions are arbitrary concrete choices; tags in their output
identify which collaborator produced a string. -/

def envW : Env :=
  { marked := fun s => "M(" ++ s ++ ")"
    textile := fun s => "T(" ++ s ++ ")"
    escapeHtml := fun s => "E(" ++ s ++ ")"
    jsonParse := fun s =>
      if s = "BAD" then .error "Unexpected token B"
      else if s = "D50" then .ok { date := some 50 }
      else if s = "D20" then .ok { date := some 20 }
      else if s = "D200" then .ok { date := some 200 }
      else if s = "HI" then .ok { title := some "Hi", tags := some ["x"] }
      else .ok {}
    yamlLoad := fun _ => .ok {}
    iniDecode := fun _ => {}
    fmtYYYY := fun _ => "Y"
    fmtMM := fun _ => "M"
    fmtDD := fun _ => "D"
    fmtMMMM := fun _ => "N"
    fmtRFC822 := fun _ => "R"
    fmtISO := fun _ => "I"
    data2xml := fun root _ => root ++ "-xml" }

def o1 : Opts :=
  { domain := some "example.com", contentDir := some "content" }

def oNoDomain : Opts :=
  { contentDir := some "content" }

/-- Two published posts (dates 50 and 20), one future post (200), one
subdirectory, and one body-only post whose date stays the run time. -/
def fsW : FS :=
  { listing := ["a.json", "b.json", "c.json", "sub", "z.md"]
    isDir := fun f => f == "sub"
    read := fun f =>
      if f = "a.json" then "D50"
      else if f = "b.json" then "D20"
      else if f = "c.json" then "D200"
      else "Zbody" }

/-- A single file whose name has two dots. -/
def fsC2 : FS :=
  { listing := ["post.md.bak"], isDir := fun _ => false
    read := fun _ => "Hello" }

/-- The spec's merge example: ordering-prefixed body plus metadata file. -/
def fsC6 : FS :=
  { listing := ["01-hello.md", "hello.json"], isDir := fun _ => false
    read := fun f => if f = "01-hello.md" then "World" else "HI" }

/-- A single malformed JSON metadata file. -/
def fsC7 : FS :=
  { listing := ["bad.json"], isDir := fun _ => false, read := fun _ => "BAD" }

/-- A single plain-text file with the given contents. -/
def fsC1 (cts : String) : FS :=
  { listing := ["note.txt"], isDir := fun _ => false, read := fun _ => cts }

/-- The future-dated post of `fsW` as it sits in the identifier map after
normalization. -/
def pFutureW : Post :=
  { name := "c"
    meta := { title := "C", date := 200, year := "Y", month := "M",
              day := "D", monthname := "N", tags := [] }
    content := ""
    html := "" }

/-- The body-only post of `fsW` (`z.md`) as it sits in the identifier map:
its date stays the run time 100. -/
def pZW : Post :=
  { name := "z"
    meta := { title := "Z", date := 100, year := "Y", month := "M",
              day := "D", monthname := "N", tags := [] }
    content := "Zbody"
    html := "M(Zbody)" }

def corpusW : Corpus := okCorpus (readBlogSync envW o1 fsW 100)

def corpusC6 : Corpus := okCorpus (readBlogSync envW o1 fsC6 100)

/-- The metadata overlay the spec example's `hello.json` decodes to. -/
def ovHi : MetaOverlay :=
  { title := some "Hi", date := none, tags := some ["x"] }

/-- Collaborators for the expanded-year counterexample runs: the decoder
dates the posts 1 January -2000 and 1 January -1000 (UTC), both far in
the past. -/
def envBC : Env :=
  { envW with jsonParse := fun s =>
      if s = "A" then .ok { date := some (-125281123200000) }
      else if s = "B" then .ok { date := some (-93724128000000) }
      else .ok {} }

/-- Two metadata-only files whose posts carry the BC dates above. -/
def fsBC : FS :=
  { listing := ["a.json", "b.json"], isDir := fun _ => false
    read := fun f => if f = "a.json" then "A" else "B" }

def corpusBC : Corpus := okCorpus (readBlogSync envBC o1 fsBC 100)


/-! ### Sorting lemmas -/

theorem mem_insertSorted {α : Type} {le : α → α → Bool} {a x : α}
    (l : List α) : x ∈ insertSorted le a l ↔ x = a ∨ x ∈ l := by
  induction l with
  | nil => simp [insertSorted]
  | cons b bs ih =>
      simp only [insertSorted]
      split
      · simp only [List.mem_cons, ih]
        try tauto
      · simp only [List.mem_cons]
        try tauto

theorem pairwise_insertSorted {α : Type} {le : α → α → Bool}
    (trans : ∀ a b c, le a b = true → le b c = true → le a c = true)
    (total : ∀ a b, le a b = true ∨ le b a = true)
    (a : α) (l : List α) (h : l.Pairwise fun x y => le x y = true) :
    (insertSorted le a l).Pairwise fun x y => le x y = true := by
  induction l with
  | nil => simp [insertSorted]
  | cons b bs ih =>
      rcases List.pairwise_cons.mp h with ⟨hb, hbs⟩
      simp only [insertSorted]
      split
      · rename_i hba
        refine List.pairwise_cons.mpr ⟨?_, ih hbs⟩
        intro x hx
        rcases (mem_insertSorted bs).mp hx with rfl | hx
        · exact hba
        · exact hb x hx
      · rename_i hba
        have hab : le a b = true := (total a b).resolve_right (by simpa using hba)
        refine List.pairwise_cons.mpr ⟨?_, h⟩
        intro x hx
        rcases List.mem_cons.mp hx with rfl | hx
        · exact hab
        · exact trans a b x hab (hb x hx)

theorem pairwise_foldl_insertSorted {α : Type} {le : α → α → Bool}
    (trans : ∀ a b c, le a b = true → le b c = true → le a c = true)
    (total : ∀ a b, le a b = true ∨ le b a = true) :
    ∀ (l acc : List α), (acc.Pairwise fun x y => le x y = true) →
      ((l.foldl (fun acc a => insertSorted le a acc) acc).Pairwise
        fun x y => le x y = true)
  | [], _, h => h
  | a :: l, acc, h =>
      pairwise_foldl_insertSorted trans total l _
        (pairwise_insertSorted trans total a acc h)

theorem pairwise_stableSort {α : Type} {le : α → α → Bool}
    (trans : ∀ a b c, le a b = true → le b c = true → le a c = true)
    (total : ∀ a b, le a b = true ∨ le b a = true) (l : List α) :
    (stableSort le l).Pairwise fun x y => le x y = true :=
  pairwise_foldl_insertSorted trans total l [] (by simp)

theorem mem_foldl_insertSorted {α : Type} {le : α → α → Bool} {x : α} :
    ∀ (l acc : List α),
      x ∈ l.foldl (fun acc a => insertSorted le a acc) acc ↔ x ∈ acc ∨ x ∈ l
  | [], acc => by simp
  | a :: l, acc => by
      rw [List.foldl_cons, mem_foldl_insertSorted l, mem_insertSorted]
      simp only [List.mem_cons]
      tauto

theorem mem_stableSort {α : Type} {le : α → α → Bool} {x : α} {l : List α} :
    x ∈ stableSort le l ↔ x ∈ l := by
  rw [stableSort, mem_foldl_insertSorted]
  simp

theorem charListLE_refl : ∀ xs, charListLE xs xs = true
  | [] => rfl
  | a :: as => by
      simp only [charListLE]
      rw [if_neg (Nat.lt_irrefl _), if_neg (Nat.lt_irrefl _)]
      exact charListLE_refl as

theorem charListLE_trans : ∀ xs ys zs : List Char,
    charListLE xs ys = true → charListLE ys zs = true →
    charListLE xs zs = true
  | [], _, _, _, _ => rfl
  | _ :: _, [], _, h1, _ => by cases h1
  | _ :: _, _ :: _, [], _, h2 => by cases h2
  | a :: as, b :: bs, c :: cs, h1, h2 => by
      simp only [charListLE] at h1 h2 ⊢
      split at h1
      · rename_i hab
        split at h2
        · rename_i hbc
          rw [if_pos (Nat.lt_trans hab hbc)]
        · rename_i hbc
          split at h2
          · cases h2
          · rename_i hcb
            rw [if_pos (show a.toNat < c.toNat by omega)]
      · rename_i hab
        split at h1
        · cases h1
        · rename_i hba
          split at h2
          · rename_i hbc
            rw [if_pos (show a.toNat < c.toNat by omega)]
          · rename_i hbc
            split at h2
            · cases h2
            · rename_i hcb
              rw [if_neg (show ¬ a.toNat < c.toNat by omega),
                if_neg (show ¬ c.toNat < a.toNat by omega)]
              exact charListLE_trans as bs cs h1 h2

theorem charListLE_total : ∀ xs ys : List Char,
    charListLE xs ys = true ∨ charListLE ys xs = true
  | [], _ => Or.inl rfl
  | _ :: _, [] => Or.inr rfl
  | a :: as, b :: bs => by
      simp only [charListLE]
      by_cases hab : a.toNat < b.toNat
      · exact Or.inl (by rw [if_pos hab])
      · by_cases hba : b.toNat < a.toNat
        · exact Or.inr (by rw [if_pos hba])
        · rcases charListLE_total as bs with h | h
          · refine Or.inl ?_
            rw [if_neg hab, if_neg hba]
            exact h
          · refine Or.inr ?_
            rw [if_neg hba, if_neg hab]
            exact h

theorem dateLE_refl (p : Post) : dateLE p p = true :=
  charListLE_refl _

theorem dateLE_trans :
    ∀ a b c, dateLE a b = true → dateLE b c = true → dateLE a c = true :=
  fun _ _ _ h1 h2 => charListLE_trans _ _ _ h1 h2

theorem dateLE_total : ∀ a b, dateLE a b = true ∨ dateLE b a = true :=
  fun _ _ => charListLE_total _ _

theorem sortedPosts_pairwise (env : Env) (now : Time) (m0 : PostMap) :
    (sortedPosts env now m0).Pairwise fun x y => dateLE x y = true :=
  pairwise_stableSort dateLE_trans dateLE_total _

/-! ### Linking lemmas -/

theorem length_linkPosts (ps : List Post) :
    (linkPosts ps).length = ps.length := by
  simp [linkPosts, List.enum_length]

theorem getElem_linkPosts (ps : List Post) (i : Nat)
    (h : i < (linkPosts ps).length) :
    (linkPosts ps)[i] =
      linkAt ps i (ps.get ⟨i, by simpa [length_linkPosts] using h⟩) := by
  simp [linkPosts, List.getElem_map, List.getElem_enum]

theorem mem_linkPosts {q : Post} {ps : List Post} (h : q ∈ linkPosts ps) :
    ∃ p ∈ ps, q.name = p.name ∧ q.meta = p.meta ∧
      q.content = p.content ∧ q.html = p.html := by
  rcases List.mem_iff_getElem.mp h with ⟨i, hi, hq⟩
  rw [getElem_linkPosts] at hq
  exact ⟨_, List.get_mem _ _ _, by rw [← hq]; exact ⟨rfl, rfl, rfl, rfl⟩⟩

/-! ### Bucket, archive and tag-index membership -/

theorem mem_bucketPush {α : Type} {l : List (String × List α)} {k : String}
    {p x : α} {k' : String} {b : List α}
    (h : (k', b) ∈ bucketPush l k p) (hx : x ∈ b) :
    (∃ b', (k', b') ∈ l ∧ x ∈ b') ∨ x = p := by
  induction l with
  | nil =>
      simp only [bucketPush, List.mem_singleton] at h
      obtain ⟨rfl, rfl⟩ := Prod.mk.injEq .. ▸ h
      right
      simpa using hx
  | cons kv rest ih =>
      obtain ⟨k0, v⟩ := kv
      simp only [bucketPush] at h
      split at h
      · rename_i hk
        rcases List.mem_cons.mp h with heq | hmem
        · obtain ⟨rfl, rfl⟩ := Prod.mk.injEq .. ▸ heq
          rcases List.mem_append.mp hx with hxv | hxp
          · exact Or.inl ⟨v, List.mem_cons_self _ _, hxv⟩
          · exact Or.inr (by simpa using hxp)
        · exact Or.inl ⟨b, List.mem_cons_of_mem _ hmem, hx⟩
      · rcases List.mem_cons.mp h with heq | hmem
        · exact Or.inl ⟨b, heq ▸ List.mem_cons_self _ _, hx⟩
        · rcases ih hmem with ⟨b', hb', hxb'⟩ | hxp
          · exact Or.inl ⟨b', List.mem_cons_of_mem _ hb', hxb'⟩
          · exact Or.inr hxp

theorem mem_archiveAdd {a : List (String × List (String × List Post))}
    {p q : Post} {y : String} {ms : List (String × List Post)}
    {mo : String} {b : List Post}
    (h : (y, ms) ∈ archiveAdd a p) (hmo : (mo, b) ∈ ms) (hq : q ∈ b) :
    (∃ ms' b', (y, ms') ∈ a ∧ (mo, b') ∈ ms' ∧ q ∈ b') ∨ q = p := by
  induction a with
  | nil =>
      simp only [archiveAdd, List.mem_singleton] at h
      obtain ⟨rfl, rfl⟩ := Prod.mk.injEq .. ▸ h
      simp only [List.mem_singleton] at hmo
      obtain ⟨rfl, rfl⟩ := Prod.mk.injEq .. ▸ hmo
      exact Or.inr (by simpa using hq)
  | cons kv rest ih =>
      obtain ⟨y0, months⟩ := kv
      simp only [archiveAdd] at h
      split at h
      · rcases List.mem_cons.mp h with heq | hmem
        · obtain ⟨rfl, rfl⟩ := Prod.mk.injEq .. ▸ heq
          rcases mem_bucketPush hmo hq with ⟨b', hb', hqb'⟩ | hqp
          · exact Or.inl ⟨months, b', List.mem_cons_self _ _, hb', hqb'⟩
          · exact Or.inr hqp
        · exact Or.inl ⟨ms, b, List.mem_cons_of_mem _ hmem, hmo, hq⟩
      · rcases List.mem_cons.mp h with heq | hmem
        · exact Or.inl ⟨ms, b, heq ▸ List.mem_cons_self _ _, hmo, hq⟩
        · rcases ih hmem with ⟨ms', b', hms', hb', hqb'⟩ | hqp
          · exact Or.inl ⟨ms', b', List.mem_cons_of_mem _ hms', hb', hqb'⟩
          · exact Or.inr hqp

theorem mem_foldl_archiveAdd {q : Post} {y : String}
    {ms : List (String × List Post)} {mo : String} {b : List Post} :
    ∀ (ps : List Post) (a0 : List (String × List (String × List Post))),
      (y, ms) ∈ ps.foldl archiveAdd a0 → (mo, b) ∈ ms → q ∈ b →
      (∃ ms' b', (y, ms') ∈ a0 ∧ (mo, b') ∈ ms' ∧ q ∈ b') ∨ q ∈ ps
  | [], a0, h, hmo, hq => Or.inl ⟨ms, b, h, hmo, hq⟩
  | p :: ps, a0, h, hmo, hq => by
      rw [List.foldl_cons] at h
      rcases mem_foldl_archiveAdd ps (archiveAdd a0 p) h hmo hq with hin | hmem
      · rcases hin with ⟨ms', b', hms', hb', hqb'⟩
        rcases mem_archiveAdd hms' hb' hqb' with ⟨ms'', b'', h1, h2, h3⟩ | hqp
        · exact Or.inl ⟨ms'', b'', h1, h2, h3⟩
        · exact Or.inr (hqp ▸ List.mem_cons_self _ _)
      · exact Or.inr (List.mem_cons_of_mem _ hmem)

theorem mem_buildArchive {ps : List Post} {q : Post} {y : String}
    {ms : List (String × List Post)} {mo : String} {b : List Post}
    (h : (y, ms) ∈ buildArchive ps) (hmo : (mo, b) ∈ ms) (hq : q ∈ b) :
    q ∈ ps := by
  rcases mem_foldl_archiveAdd ps [] h hmo hq with ⟨ms', b', hms', _, _⟩ | hmem
  · exact absurd hms' (List.not_mem_nil _)
  · exact hmem

theorem mem_taggedAdd {t : List (String × List Post)} {p q : Post}
    {tag : String} {bkt : List Post}
    (h : (tag, bkt) ∈ taggedAdd t p) (hq : q ∈ bkt) :
    (∃ bkt', (tag, bkt') ∈ t ∧ q ∈ bkt') ∨ q = p := by
  rw [taggedAdd] at h
  -- fold over the tag list
  suffices H : ∀ (tags : List String) (t0 : List (String × List Post)),
      (tag, bkt) ∈ tags.foldl (fun t tg => bucketPush t tg p) t0 →
      (∃ bkt', (tag, bkt') ∈ t0 ∧ q ∈ bkt') ∨ q = p by
    exact H p.meta.tags t h
  intro tags
  induction tags with
  | nil => exact fun t0 h0 => Or.inl ⟨bkt, h0, hq⟩
  | cons tg tags ih =>
      intro t0 h0
      rw [List.foldl_cons] at h0
      rcases ih (bucketPush t0 tg p) h0 with ⟨bkt', hb', hqb'⟩ | hqp
      · exact (mem_bucketPush hb' hqb').imp_left fun ⟨b', h1, h2⟩ => ⟨b', h1, h2⟩
      · exact Or.inr hqp

theorem mem_foldl_taggedAdd {q : Post} {tag : String} {bkt : List Post} :
    ∀ (ps : List Post) (t0 : List (String × List Post)),
      (tag, bkt) ∈ ps.foldl taggedAdd t0 → q ∈ bkt →
      (∃ bkt', (tag, bkt') ∈ t0 ∧ q ∈ bkt') ∨ q ∈ ps
  | [], t0, h, hq => Or.inl ⟨bkt, h, hq⟩
  | p :: ps, t0, h, hq => by
      rw [List.foldl_cons] at h
      rcases mem_foldl_taggedAdd ps (taggedAdd t0 p) h hq with hin | hmem
      · rcases hin with ⟨bkt', hb', hqb'⟩
        rcases mem_taggedAdd hb' hqb' with ⟨bkt'', h1, h2⟩ | hqp
        · exact Or.inl ⟨bkt'', h1, h2⟩
        · exact Or.inr (hqp ▸ List.mem_cons_self _ _)
      · exact Or.inr (List.mem_cons_of_mem _ hmem)

theorem mem_buildTagged {ps : List Post} {q : Post} {tag : String}
    {bkt : List Post} (h : (tag, bkt) ∈ buildTagged ps) (hq : q ∈ bkt) :
    q ∈ ps := by
  rcases mem_foldl_taggedAdd ps [] h hq with ⟨bkt', hb', _⟩ | hmem
  · exact absurd hb' (List.not_mem_nil _)
  · exact hmem

/-! ### Accumulating-map lemmas -/

theorem mem_ensurePost {m : PostMap} {k : String} {d : Post}
    {kv : String × Post} (h : kv ∈ ensurePost m k d) :
    kv ∈ m ∨ kv = (k, d) := by
  unfold ensurePost at h
  split at h
  · exact Or.inl h
  · rcases List.mem_append.mp h with h | h
    · exact Or.inl h
    · exact Or.inr (by simpa using h)

theorem mem_updatePost {m : PostMap} {k : String} {f : Post → Post}
    {kv : String × Post} (h : kv ∈ updatePost m k f) :
    (kv ∈ m ∧ kv.1 ≠ k) ∨ ∃ p, (k, p) ∈ m ∧ kv = (k, f p) := by
  unfold updatePost at h
  rcases List.mem_map.mp h with ⟨kv0, hkv0, heq⟩
  by_cases hk : kv0.1 = k
  · rw [if_pos hk] at heq
    exact Or.inr ⟨kv0.2, by rwa [← hk], by rw [← heq, hk]⟩
  · rw [if_neg hk] at heq
    exact Or.inl ⟨heq ▸ hkv0, heq ▸ hk⟩

theorem updatePost_keys {k : String} {f : Post → Post} :
    ∀ (m : PostMap), (updatePost m k f).map Prod.fst = m.map Prod.fst
  | [] => rfl
  | kv :: rest => by
      show ((if kv.1 = k then (kv.1, f kv.2) else kv) :: updatePost rest k f).map
          Prod.fst = _
      simp only [List.map_cons, updatePost_keys rest]
      split <;> rfl

theorem lookup_none_not_mem_keys {m : PostMap} {k : String}
    (h : m.lookup k = none) : k ∉ m.map Prod.fst := by
  induction m with
  | nil => simp
  | cons kv rest ih =>
      obtain ⟨k0, p0⟩ := kv
      rw [List.lookup_cons] at h
      by_cases hk : k = k0
      · rw [beq_iff_eq.mpr hk] at h
        exact absurd h (by simp)
      · rw [beq_eq_false_iff_ne.mpr hk] at h
        simp only [List.map_cons, List.mem_cons]
        exact fun hc => hc.elim hk (ih h)

theorem goodMap_ensurePost {m : PostMap} {k : String} {d : Post}
    (h : goodMap m) (hd : d.name = k) : goodMap (ensurePost m k d) := by
  unfold ensurePost
  split
  · exact h
  · rename_i hl
    constructor
    · rw [List.map_append]
      rw [List.nodup_append]
      refine ⟨h.1, by simp, ?_⟩
      intro x hx hx2
      simp only [List.map_cons, List.map_nil, List.mem_singleton] at hx2
      subst hx2
      exact lookup_none_not_mem_keys (Option.not_isSome_iff_eq_none.mp hl) hx
    · intro kv hkv
      rcases List.mem_append.mp hkv with hkv | hkv
      · exact h.2 kv hkv
      · simp only [List.mem_singleton] at hkv
        rw [hkv]
        exact hd

theorem goodMap_updatePost {m : PostMap} {k : String} {f : Post → Post}
    (h : goodMap m) (hf : ∀ p, (f p).name = p.name) :
    goodMap (updatePost m k f) := by
  constructor
  · rw [updatePost_keys]
    exact h.1
  · intro kv hkv
    rcases mem_updatePost hkv with ⟨hm, _⟩ | ⟨p, hp, rfl⟩
    · exact h.2 kv hm
    · show (f p).name = k
      rw [hf p]
      exact h.2 (k, p) hp

/-! ### Per-file processing lemmas -/

theorem processFile_goodMap {env : Env} {fs : FS} {now : Time} {m : PostMap}
    {f : String} {r : PostMap} (hg : goodMap m)
    (h : processFile env fs now m f = .ok r) : goodMap r := by
  have hens : ∀ k : String, goodMap (ensurePost m k (defaultPost env now k)) :=
    fun k => goodMap_ensurePost hg rfl
  simp only [processFile] at h
  split at h
  · injection h with h
    exact h ▸ hg
  · split at h
    · injection h with h
      exact h ▸ hg
    · split at h
      · split at h
        · injection h with h
          exact h ▸ goodMap_updatePost (hens _) fun p => rfl
        · cases h
      · split at h
        · split at h
          · injection h with h
            exact h ▸ goodMap_updatePost (hens _) fun p => rfl
          · cases h
        · split at h
          · injection h with h
            exact h ▸ goodMap_updatePost (hens _) fun p => rfl
          · split at h
            · injection h with h
              exact h ▸ goodMap_updatePost (hens _) fun p => rfl
            · split at h
              · injection h with h
                exact h ▸ goodMap_updatePost (hens _) fun p => rfl
              · split at h
                · injection h with h
                  exact h ▸ goodMap_updatePost (hens _) fun p => rfl
                · split at h
                  · injection h with h
                    exact h ▸ goodMap_updatePost (hens _) fun p => rfl
                  · injection h with h
                    exact h ▸ hens _

theorem processFile_error_shape {env : Env} {fs : FS} {now : Time}
    {m : PostMap} {f : String} {e : BlogErr}
    (h : processFile env fs now m f = .error e) :
    (∃ msg, e = .jsonDecode f msg ∧ extOf f = some "json" ∧
      env.jsonParse (fs.read f) = .error msg) ∨
    (∃ msg, e = .yamlDecode f msg ∧ extOf f = some "yaml" ∧
      env.yamlLoad (fs.read f) = .error msg) := by
  simp only [processFile] at h
  split at h
  · cases h
  · rename_i ext hsome
    split at h
    · cases h
    · split at h
      · rename_i hjson
        split at h
        · cases h
        · rename_i msg hperr
          injection h with h
          refine Or.inl ⟨msg, ?_, ?_, hperr⟩
          · rw [← h]
          · rw [extOf, hsome, beq_iff_eq.mp hjson]
      · split at h
        · rename_i hyaml
          split at h
          · cases h
          · rename_i msg hperr
            injection h with h
            refine Or.inr ⟨msg, ?_, ?_, hperr⟩
            · rw [← h]
            · rw [extOf, hsome]
              rename_i hj _ _
              rw [beq_iff_eq.mp hyaml]
        · split at h
          · cases h
          · split at h
            · cases h
            · split at h
              · cases h
              · split at h
                · cases h
                · split at h
                  · cases h
                  · cases h

theorem processFile_json_error {env : Env} {fs : FS} {now : Time}
    {m : PostMap} {f : String} {msg : String} (hext : extOf f = some "json")
    (hfail : env.jsonParse (fs.read f) = .error msg) :
    processFile env fs now m f = .error (.jsonDecode f msg) := by
  unfold extOf at hext
  simp [processFile, hext, hfail, validExt]

theorem processFile_dateInv {env : Env} {fs : FS} {now : Time} {m : PostMap}
    {f : String} {r : PostMap} {n : String}
    (hm : ∀ kv ∈ m, kv.1 = n → kv.2.meta.date = now)
    (hf : ∀ e, extOf f = some e → validExt e = true →
        stripNumOrder ((jsSplit '.' f).headD "") = n →
        e = "html" ∨ e = "md" ∨ e = "textile" ∨ e = "txt")
    (h : processFile env fs now m f = .ok r) :
    ∀ kv ∈ r, kv.1 = n → kv.2.meta.date = now := by
  have hens : ∀ kv ∈ ensurePost m (stripNumOrder ((jsSplit '.' f).headD ""))
      (defaultPost env now (stripNumOrder ((jsSplit '.' f).headD ""))),
      kv.1 = n → kv.2.meta.date = now := by
    intro kv hkv hn
    rcases mem_ensurePost hkv with hmem | rfl
    · exact hm kv hmem hn
    · rfl
  simp only [processFile] at h
  split at h
  · injection h with h
    exact h ▸ hm
  · rename_i ext hsome
    split at h
    · injection h with h
      exact h ▸ hm
    · rename_i hvne
      have hvalid : validExt ext = true := by
        by_contra hc
        exact hvne (by simp [Bool.not_eq_true] at hc ⊢; exact hc)
      have hblock : ∀ (lit : String), ext = lit →
          (lit = "html" ∨ lit = "md" ∨ lit = "textile" ∨ lit = "txt" → False) →
          ¬ stripNumOrder ((jsSplit '.' f).headD "") = n := by
        intro lit hlit hnot hname
        exact hnot (hlit ▸ hf ext (by rw [extOf, hsome]) hvalid hname)
      split at h
      · rename_i hjson
        split at h
        · rename_i o hpok
          injection h with h
          subst h
          intro kv hkv hn
          rcases mem_updatePost hkv with ⟨hmem, _⟩ | ⟨p, hp, rfl⟩
          · exact hens kv hmem hn
          · exact absurd hn (hblock "json" (beq_iff_eq.mp hjson) (by decide))
        · cases h
      · split at h
        · rename_i hyaml
          split at h
          · rename_i o hpok
            injection h with h
            subst h
            intro kv hkv hn
            rcases mem_updatePost hkv with ⟨hmem, _⟩ | ⟨p, hp, rfl⟩
            · exact hens kv hmem hn
            · exact absurd hn (hblock "yaml" (beq_iff_eq.mp hyaml) (by decide))
          · cases h
        · split at h
          · rename_i hini
            injection h with h
            subst h
            intro kv hkv hn
            rcases mem_updatePost hkv with ⟨hmem, _⟩ | ⟨p, hp, rfl⟩
            · exact hens kv hmem hn
            · exact absurd hn (hblock "ini" (beq_iff_eq.mp hini) (by decide))
          · split at h
            · injection h with h
              subst h
              intro kv hkv hn
              rcases mem_updatePost hkv with ⟨hmem, _⟩ | ⟨p, hp, rfl⟩
              · exact hens kv hmem hn
              · exact hens (_, p) hp hn
            · split at h
              · injection h with h
                subst h
                intro kv hkv hn
                rcases mem_updatePost hkv with ⟨hmem, _⟩ | ⟨p, hp, rfl⟩
                · exact hens kv hmem hn
                · exact hens (_, p) hp hn
              · split at h
                · injection h with h
                  subst h
                  intro kv hkv hn
                  rcases mem_updatePost hkv with ⟨hmem, _⟩ | ⟨p, hp, rfl⟩
                  · exact hens kv hmem hn
                  · exact hens (_, p) hp hn
                · split at h
                  · injection h with h
                    subst h
                    intro kv hkv hn
                    rcases mem_updatePost hkv with ⟨hmem, _⟩ | ⟨p, hp, rfl⟩
                    · exact hens kv hmem hn
                    · exact hens (_, p) hp hn
                  · injection h with h
                    subst h
                    exact hens

/-! ### Whole-loop lemmas -/

theorem processFilesFrom_goodMap {env : Env} {fs : FS} {now : Time} :
    ∀ (files : List String) (m r : PostMap), goodMap m →
      processFilesFrom env fs now files m = .ok r → goodMap r
  | [], m, r, hg, h => by
      injection h with h
      exact h ▸ hg
  | f :: files, m, r, hg, h => by
      unfold processFilesFrom at h
      cases hf : processFile env fs now m f with
      | ok m' =>
          rw [hf] at h
          exact processFilesFrom_goodMap files m' r (processFile_goodMap hg hf) h
      | error e0 =>
          rw [hf] at h
          cases h

theorem processFiles_goodMap {env : Env} {fs : FS} {now : Time}
    {files : List String} {r : PostMap}
    (h : processFiles env fs now files = .ok r) : goodMap r :=
  processFilesFrom_goodMap files [] r ⟨List.nodup_nil, by simp⟩ h

theorem processFilesFrom_dateInv {env : Env} {fs : FS} {now : Time}
    {n : String} :
    ∀ (files : List String) (m r : PostMap),
      (∀ kv ∈ m, kv.1 = n → kv.2.meta.date = now) →
      (∀ f ∈ files, ∀ e, extOf f = some e → validExt e = true →
        stripNumOrder ((jsSplit '.' f).headD "") = n →
        e = "html" ∨ e = "md" ∨ e = "textile" ∨ e = "txt") →
      processFilesFrom env fs now files m = .ok r →
      ∀ kv ∈ r, kv.1 = n → kv.2.meta.date = now
  | [], m, r, hm, _, h => by
      injection h with h
      exact h ▸ hm
  | f :: files, m, r, hm, hb, h => by
      unfold processFilesFrom at h
      cases hf : processFile env fs now m f with
      | ok m' =>
          rw [hf] at h
          exact processFilesFrom_dateInv files m' r
            (processFile_dateInv hm (hb f (List.mem_cons_self _ _)) hf)
            (fun g hg => hb g (List.mem_cons_of_mem _ hg)) h
      | error e0 =>
          rw [hf] at h
          cases h

theorem processFilesFrom_error_shape {env : Env} {fs : FS} {now : Time} :
    ∀ (files : List String) (m : PostMap) (e : BlogErr),
      processFilesFrom env fs now files m = .error e →
      ∃ f ∈ files,
        (∃ msg, e = .jsonDecode f msg ∧ extOf f = some "json" ∧
          env.jsonParse (fs.read f) = .error msg) ∨
        (∃ msg, e = .yamlDecode f msg ∧ extOf f = some "yaml" ∧
          env.yamlLoad (fs.read f) = .error msg)
  | [], m, e, h => by cases h
  | f :: files, m, e, h => by
      unfold processFilesFrom at h
      cases hf : processFile env fs now m f with
      | ok m' =>
          rw [hf] at h
          rcases processFilesFrom_error_shape files m' e h with ⟨g, hg, hsh⟩
          exact ⟨g, List.mem_cons_of_mem _ hg, hsh⟩
      | error e0 =>
          rw [hf] at h
          injection h with h
          exact ⟨f, List.mem_cons_self _ _, h ▸ processFile_error_shape hf⟩

theorem processFilesFrom_ok_no_jsonError {env : Env} {fs : FS} {now : Time} :
    ∀ (files : List String) (m r : PostMap),
      processFilesFrom env fs now files m = .ok r →
      ∀ f ∈ files, extOf f = some "json" →
        ∀ msg, ¬ env.jsonParse (fs.read f) = .error msg
  | [], m, r, h, f, hf, hext, msg => by cases hf
  | g :: files, m, r, h, f, hf, hext, msg => by
      intro hfail
      unfold processFilesFrom at h
      cases hg : processFile env fs now m g with
      | ok m' =>
          rw [hg] at h
          rcases List.mem_cons.mp hf with rfl | hf2
          · rw [processFile_json_error hext hfail] at hg
            cases hg
          · exact processFilesFrom_ok_no_jsonError files m' r h f hf2 hext msg hfail
      | error e0 =>
          rw [hg] at h
          cases h

/-! ### Pipeline inversion and corpus projections -/

theorem readBlogSync_ok {env : Env} {opts : Opts} {fs : FS} {now : Time}
    {c : Corpus} (h : readBlogSync env opts fs now = .ok c) :
    ∃ m0, processFiles env fs now (scanFiles fs) = .ok m0 ∧
      c = assembleCorpus env opts now m0 := by
  unfold readBlogSync at h
  split at h
  · cases h
  · split at h
    · cases h
    · split at h
      · cases h
      · rename_i m0 hm
        injection h with h
        exact ⟨m0, hm, h.symm⟩

theorem readBlogSync_processError {env : Env} {opts : Opts} {fs : FS}
    {now : Time} {e : BlogErr}
    (hdom : ¬ opts.domain.getD "" = "")
    (hdir : ¬ opts.contentDir.getD "" = "")
    (h : processFiles env fs now (scanFiles fs) = .error e) :
    readBlogSync env opts fs now = .error e := by
  have h1 : (opts.domain.getD "" == "") = false := beq_eq_false_iff_ne.mpr hdom
  have h2 : (opts.contentDir.getD "" == "") = false := beq_eq_false_iff_ne.mpr hdir
  simp [readBlogSync, h1, h2, h]

/-! ### Membership in the published, sorted, linked sequence -/

theorem mem_publishedPosts {env : Env} {now : Time} {m0 : PostMap} {p : Post}
    (h : p ∈ publishedPosts env now m0) :
    p.meta.date < now ∧ ∃ k, (k, p) ∈ normMap env m0 := by
  unfold publishedPosts at h
  rcases List.mem_filter.mp h with ⟨hmem, hdec⟩
  refine ⟨by simpa using hdec, ?_⟩
  rcases List.mem_map.mp hmem with ⟨kv, hkv, rfl⟩
  exact ⟨kv.1, by simpa using hkv⟩

theorem mem_finalPosts {env : Env} {now : Time} {m0 : PostMap} {q : Post}
    (h : q ∈ finalPosts env now m0) :
    ∃ p, p ∈ publishedPosts env now m0 ∧ q.name = p.name ∧ q.meta = p.meta ∧
      q.content = p.content ∧ q.html = p.html := by
  unfold finalPosts at h
  rcases mem_linkPosts h with ⟨p, hp, hfields⟩
  exact ⟨p, mem_stableSort.mp hp, hfields⟩

theorem finalPosts_date_lt {env : Env} {now : Time} {m0 : PostMap} :
    ∀ q ∈ finalPosts env now m0, q.meta.date < now := by
  intro q hq
  rcases mem_finalPosts hq with ⟨p', hpub, _, hmeta, _, _⟩
  rw [show q.meta = p'.meta from hmeta]
  exact (mem_publishedPosts hpub).1

theorem normMap_keys {env : Env} :
    ∀ (m0 : PostMap), (normMap env m0).map Prod.fst = m0.map Prod.fst
  | [] => rfl
  | kv :: rest => by
      show kv.1 :: (normMap env rest).map Prod.fst = kv.1 :: rest.map Prod.fst
      rw [normMap_keys rest]

theorem goodMap_normMap (env : Env) {m0 : PostMap} (h : goodMap m0) :
    goodMap (normMap env m0) := by
  constructor
  · rw [normMap_keys]
    exact h.1
  · intro kv hkv
    rcases List.mem_map.mp hkv with ⟨kv0, hkv0, heq⟩
    rw [← heq]
    show (normalizePost env kv0.2).name = kv0.1
    exact h.2 kv0 hkv0

theorem lookup_of_mem_nodup : ∀ {m : PostMap}, (m.map Prod.fst).Nodup →
    ∀ {k : String} {p : Post}, (k, p) ∈ m → m.lookup k = some p := by
  intro m
  induction m with
  | nil =>
      intro _ k p h
      cases h
  | cons kv rest ih =>
      intro hnd k p h
      obtain ⟨k0, p0⟩ := kv
      rw [List.lookup_cons]
      rcases List.mem_cons.mp h with heq | hmem
      · obtain ⟨rfl, rfl⟩ := Prod.mk.injEq .. ▸ heq
        simp
      · by_cases hk : k = k0
        · subst hk
          exfalso
          have hkeys : k ∈ rest.map Prod.fst := List.mem_map.mpr ⟨(k, p), hmem, rfl⟩
          simp only [List.map_cons, List.nodup_cons] at hnd
          exact hnd.1 hkeys
        · rw [beq_eq_false_iff_ne.mpr hk]
          refine ih ?_ hmem
          simp only [List.map_cons, List.nodup_cons] at hnd
          exact hnd.2

theorem mem_of_lookup : ∀ {m : PostMap} {k : String} {p : Post},
    m.lookup k = some p → (k, p) ∈ m := by
  intro m
  induction m with
  | nil =>
      intro k p h
      cases h
  | cons kv rest ih =>
      intro k p h
      obtain ⟨k0, p0⟩ := kv
      rw [List.lookup_cons] at h
      cases hbeq : k == k0 with
      | true =>
          rw [hbeq] at h
          injection h with h
          exact List.mem_cons.mpr (Or.inl (by rw [beq_iff_eq.mp hbeq, h]))
      | false =>
          rw [hbeq] at h
          exact List.mem_cons_of_mem _ (ih h)

theorem finalPosts_name_ne {env : Env} {now : Time} {m0 : PostMap}
    {n : String} {p : Post} (hg : goodMap m0)
    (hp : (normMap env m0).lookup n = some p) (hd : ¬ p.meta.date < now) :
    ∀ q ∈ finalPosts env now m0, q.name ≠ n := by
  intro q hq hqn
  rcases mem_finalPosts hq with ⟨p', hpub, hname, hmeta, _, _⟩
  rcases mem_publishedPosts hpub with ⟨hdate, k, hkmem⟩
  have hgn := goodMap_normMap env hg
  have hk : p'.name = k := hgn.2 (k, p') hkmem
  have hkn : k = n := by rw [← hk, ← hname, hqn]
  subst hkn
  have hlook := lookup_of_mem_nodup hgn.1 hkmem
  rw [hp] at hlook
  injection hlook with hlook
  rw [hlook] at hd
  exact hd hdate

theorem mem_latest_finalPosts {env : Env} {opts : Opts} {now : Time}
    {m0 : PostMap} {q : Post}
    (h : q ∈ (assembleCorpus env opts now m0).latest) :
    q ∈ finalPosts env now m0 :=
  List.mem_reverse.mp (List.mem_of_mem_take h)

theorem mem_archive_finalPosts {env : Env} {opts : Opts} {now : Time}
    {m0 : PostMap} {q : Post} {y : String} {ms : List (String × List Post)}
    {mo : String} {b : List Post}
    (hy : (y, ms) ∈ (assembleCorpus env opts now m0).archive)
    (hmo : (mo, b) ∈ ms) (hq : q ∈ b) : q ∈ finalPosts env now m0 :=
  mem_buildArchive hy hmo hq

theorem mem_tagged_finalPosts {env : Env} {opts : Opts} {now : Time}
    {m0 : PostMap} {q : Post} {t : String} {b : List Post}
    (ht : (t, b) ∈ (assembleCorpus env opts now m0).tagged) (hq : q ∈ b) :
    q ∈ finalPosts env now m0 :=
  mem_buildTagged ht hq

/-! ### Corpus projections -/

theorem assembleCorpus_posts (env : Env) (opts : Opts) (now : Time)
    (m0 : PostMap) :
    (assembleCorpus env opts now m0).posts = finalPosts env now m0 := rfl

theorem assembleCorpus_post (env : Env) (opts : Opts) (now : Time)
    (m0 : PostMap) :
    (assembleCorpus env opts now m0).post = normMap env m0 := rfl

theorem assembleCorpus_latest (env : Env) (opts : Opts) (now : Time)
    (m0 : PostMap) :
    (assembleCorpus env opts now m0).latest =
      (finalPosts env now m0).reverse.take (opts.latestCount.getD 10) := rfl

/-! ### Filename-splitting characterization -/

theorem splitChar_ne_nil {sep : Char} : ∀ (l : List Char),
    splitChar sep l ≠ []
  | [] => by simp [splitChar]
  | c :: cs => by
      simp only [splitChar]
      cases hs : splitChar sep cs with
      | nil =>
          show ([[c]] : List (List Char)) ≠ []
          simp
      | cons r rs =>
          show (if c = sep then [] :: r :: rs else (c :: r) :: rs) ≠ []
          split <;> simp

theorem splitChar_head (sep : Char) : ∀ (l : List Char),
    (splitChar sep l).headD [] = l.takeWhile fun c => c != sep
  | [] => rfl
  | c :: cs => by
      simp only [splitChar]
      cases hs : splitChar sep cs with
      | nil => exact absurd hs (splitChar_ne_nil cs)
      | cons r rs =>
          show (if c = sep then [] :: r :: rs else (c :: r) :: rs).headD [] =
            List.takeWhile (fun c => c != sep) (c :: cs)
          by_cases hc : c = sep
          · rw [if_pos hc]
            simp [List.takeWhile_cons, hc]
          · rw [if_neg hc]
            have ih := splitChar_head sep cs
            rw [hs] at ih
            simp only [List.headD_cons] at ih
            simp [List.takeWhile_cons, hc, ih]

theorem splitChar_second (sep : Char) : ∀ (l : List Char),
    (splitChar sep l)[1]? =
      (match l.dropWhile (fun c => c != sep) with
       | [] => none
       | _ :: rest => some (rest.takeWhile fun c => c != sep))
  | [] => rfl
  | c :: cs => by
      simp only [splitChar]
      cases hs : splitChar sep cs with
      | nil => exact absurd hs (splitChar_ne_nil cs)
      | cons r rs =>
          show (if c = sep then [] :: r :: rs else (c :: r) :: rs)[1]? =
            (match (c :: cs).dropWhile (fun c => c != sep) with
             | [] => none
             | _ :: rest => some (rest.takeWhile fun c => c != sep))
          by_cases hc : c = sep
          · rw [if_pos hc]
            have hhead := splitChar_head sep cs
            rw [hs] at hhead
            simp only [List.headD_cons] at hhead
            simp only [List.getElem?_cons_succ, List.getElem?_cons_zero]
            simp [List.dropWhile_cons, hc, hhead]
          · rw [if_neg hc]
            have ih := splitChar_second sep cs
            rw [hs] at ih
            simp only [List.getElem?_cons_succ] at ih ⊢
            simpa [List.dropWhile_cons, hc] using ih

theorem jsSplit_head (sep : Char) (s : String) :
    (jsSplit sep s).headD "" =
      String.mk (s.data.takeWhile fun c => c != sep) := by
  unfold jsSplit
  cases hs : splitChar sep s.data with
  | nil => exact absurd hs (splitChar_ne_nil s.data)
  | cons r rs =>
      have hr : r = s.data.takeWhile fun c => c != sep := by
        have := splitChar_head sep s.data
        rw [hs] at this
        simpa using this
      simp [hr]

theorem extOf_eq_between_dots (f : String) :
    extOf f =
      (match f.data.dropWhile (fun c => c != '.') with
       | [] => none
       | _ :: rest => some (String.mk (rest.takeWhile fun c => c != '.'))) := by
  unfold extOf jsSplit
  rw [List.getElem?_map, splitChar_second]
  cases hdrop : f.data.dropWhile (fun c => c != '.') <;> simp

/-- A file whose dispatch extension is missing or unrecognized leaves the
accumulating map untouched and raises no error. -/
theorem processFile_skip {env : Env} {fs : FS} {now : Time} {m : PostMap}
    {f : String} (h : ∀ e, extOf f = some e → validExt e = false) :
    processFile env fs now m f = .ok m := by
  rcases hs : extOf f with _ | e
  · unfold extOf at hs
    simp [processFile, hs]
  · have hv : validExt e = false := h e hs
    unfold extOf at hs
    simp [processFile, hs, hv]

/-! ### The claims -/

/-- C1 (code bug): the spec says a plain-text (`.txt`) file yields `content`
equal to the raw contents and `html` equal to the HTML-escaped contents in a
`<pre>` block.  The code lists `txt` in `validExt` (src line 41), but the
body dispatch tests `ext === 'text'` (src line 157) — a literal that can
never pass `validExt` — so the preformatted branch is dead code and a `.txt`
file produces a post with empty `content` and `html`.  This theorem
evaluates the pipeline at the failing input `note.txt` (arbitrary contents
and collaborators, run time 100): the post exists, but both body fields are
empty instead of the claimed raw/escaped contents. -/
theorem C1_txt_file_keeps_empty_body (env : Env) (cts : String) :
    validExt "txt" = true ∧
    (readBlogSync env o1 (fsC1 cts) 100).toOption.map
      (fun c =>
        ((c.post.lookup "note").map fun p => (p.name, p.content, p.html),
         c.posts.length)) =
      some (some ("note", "", ""), 0) :=
  ⟨rfl, rfl⟩

/-- C2 counterexample: for the filename `post.md.bak`, everything after the
first dot is "md.bak", which is not in the recognized set, so the claim as
stated requires the file to be skipped with no post.  The code instead
dispatches on the segment between the first two dots ("md") and renders the
file as markdown: the corpus contains a post "post" built from it. -/
theorem C2_counterexample :
    validExt "md.bak" = false ∧
    (readBlogSync envW o1 fsC2 100).toOption.map
      (fun c => c.post.map fun kv => (kv.1, kv.2.content, kv.2.html)) =
      some [("post", "Hello", "M(Hello)")] :=
  ⟨rfl, rfl⟩

/-- C2 (amended): the base identifier is the text before the first dot; the
extension is the segment strictly between the first and the second dot (the
second field of splitting the filename on every dot), not everything after
the first dot; and a file whose extension so computed is missing or not in
the recognized set is skipped entirely, contributing to no post and raising
no error. -/
theorem C2_amended_split_and_skip (env : Env) (fs : FS) (now : Time)
    (m : PostMap) (f : String)
    (h : ∀ e, extOf f = some e → validExt e = false) :
    (jsSplit '.' f).headD "" =
      String.mk (f.data.takeWhile fun c => c != '.') ∧
    extOf f =
      (match f.data.dropWhile (fun c => c != '.') with
       | [] => none
       | _ :: rest => some (String.mk (rest.takeWhile fun c => c != '.'))) ∧
    processFile env fs now m f = .ok m :=
  ⟨jsSplit_head '.' f, extOf_eq_between_dots f, processFile_skip h⟩

/-- C2 witness: the amended claim applied to the concrete unrecognized file
`a.xyz`. -/
theorem C2_amended_witness :
    (∀ e, extOf "a.xyz" = some e → validExt e = false) ∧
    ((jsSplit '.' "a.xyz").headD "" =
        String.mk ("a.xyz".data.takeWhile fun c => c != '.') ∧
      extOf "a.xyz" =
        (match "a.xyz".data.dropWhile (fun c => c != '.') with
         | [] => none
         | _ :: rest => some (String.mk (rest.takeWhile fun c => c != '.'))) ∧
      processFile envW fsW 100 [] "a.xyz" = .ok []) := by
  have h : ∀ e, extOf "a.xyz" = some e → validExt e = false := by
    intro e he
    have he2 : some "xyz" = some e := he
    injection he2 with he2
    rw [← he2]
    rfl
  exact ⟨h, C2_amended_split_and_skip envW fsW 100 [] "a.xyz" h⟩

/-- C8: an invocation whose configuration lacks `domain` or `contentDir`
(absent key or empty string — both falsy) fails with a configuration error
whose value is the same for every filesystem, so the failure happens before
any filesystem access can influence the result. -/
theorem C8_config_error_before_io (env : Env) (opts : Opts) (now : Time)
    (h : opts.domain.getD "" = "" ∨ opts.contentDir.getD "" = "") :
    ∃ msg, ∀ fs : FS, readBlogSync env opts fs now = .error (.config msg) := by
  by_cases hd : opts.domain.getD "" = ""
  · exact ⟨"Provide a domain", fun fs => by simp [readBlogSync, hd]⟩
  · have hc : opts.contentDir.getD "" = "" := h.resolve_left hd
    refine ⟨"Provide a contentDir", fun fs => ?_⟩
    have h1 : (opts.domain.getD "" == "") = false := beq_eq_false_iff_ne.mpr hd
    simp [readBlogSync, h1, hc]

/-- C8 witness: the configuration error at a concrete domain-less
configuration. -/
theorem C8_witness :
    (oNoDomain.domain.getD "" = "" ∨ oNoDomain.contentDir.getD "" = "") ∧
    ∃ msg, ∀ fs : FS, readBlogSync envW oNoDomain fs 100 =
      .error (.config msg) :=
  ⟨Or.inl rfl, C8_config_error_before_io envW oNoDomain 100 (Or.inl rfl)⟩

/-- C9: the pipeline is a deterministic function of the directory snapshot
and the injected current time: invocations on equal snapshots and equal
times return equal results, in particular equal `posts`, `archive`,
`tagged`, `rss` and `atom` components. -/
theorem C9_deterministic (env : Env) (opts : Opts) (fs1 fs2 : FS)
    (now1 now2 : Time) (hfs : fs1 = fs2) (hnow : now1 = now2) :
    readBlogSync env opts fs1 now1 = readBlogSync env opts fs2 now2 ∧
    ∀ c1 c2, readBlogSync env opts fs1 now1 = .ok c1 →
      readBlogSync env opts fs2 now2 = .ok c2 →
      c1.posts = c2.posts ∧ c1.archive = c2.archive ∧
      c1.tagged = c2.tagged ∧ c1.rss = c2.rss ∧ c1.atom = c2.atom := by
  subst hfs
  subst hnow
  refine ⟨rfl, ?_⟩
  intro c1 c2 h1 h2
  rw [h1] at h2
  injection h2 with h2
  rw [h2]
  exact ⟨rfl, rfl, rfl, rfl, rfl⟩

/-- C9 witness: determinism instantiated at a concrete snapshot and time. -/
theorem C9_witness :
    fsW = fsW ∧ (100 : Time) = 100 ∧
    (readBlogSync envW o1 fsW 100 = readBlogSync envW o1 fsW 100 ∧
      ∀ c1 c2, readBlogSync envW o1 fsW 100 = .ok c1 →
        readBlogSync envW o1 fsW 100 = .ok c2 →
        c1.posts = c2.posts ∧ c1.archive = c2.archive ∧
        c1.tagged = c2.tagged ∧ c1.rss = c2.rss ∧ c1.atom = c2.atom) :=
  ⟨rfl, rfl, C9_deterministic envW o1 fsW fsW 100 100 rfl rfl⟩

/-- C4: every post in the published sequence `posts` has a resolved date
strictly before the run time; and any post in the identifier map whose date
is not strictly before the run time appears (by identifier) in none of
`posts`, `latest`, `archive` or `tagged`. -/
theorem C4_publish_filter (env : Env) (opts : Opts) (fs : FS) (now : Time)
    (c : Corpus) (h : readBlogSync env opts fs now = .ok c) :
    (∀ q ∈ c.posts, q.meta.date < now) ∧
    (∀ n p, c.post.lookup n = some p → ¬ p.meta.date < now →
      (∀ q ∈ c.posts, q.name ≠ n) ∧
      (∀ q ∈ c.latest, q.name ≠ n) ∧
      (∀ y ms, (y, ms) ∈ c.archive → ∀ mo b, (mo, b) ∈ ms →
        ∀ q ∈ b, q.name ≠ n) ∧
      (∀ t b, (t, b) ∈ c.tagged → ∀ q ∈ b, q.name ≠ n)) := by
  rcases readBlogSync_ok h with ⟨m0, hm0, rfl⟩
  have hgood : goodMap m0 := processFiles_goodMap hm0
  constructor
  · intro q hq
    rw [assembleCorpus_posts] at hq
    exact finalPosts_date_lt q hq
  · intro n p hp hd
    rw [assembleCorpus_post] at hp
    have hne := finalPosts_name_ne hgood hp hd
    refine ⟨?_, ?_, ?_, ?_⟩
    · intro q hq
      rw [assembleCorpus_posts] at hq
      exact hne q hq
    · intro q hq
      exact hne q (mem_latest_finalPosts hq)
    · intro y ms hy mo b hmo q hq
      exact hne q (mem_archive_finalPosts hy hmo hq)
    · intro t b ht q hq
      exact hne q (mem_tagged_finalPosts ht hq)

/-- C4 witness: in the concrete run, the future-dated post "c" (date 200,
run time 100) sits in the identifier map yet is excluded everywhere. -/
theorem C4_witness :
    corpusW.post.lookup "c" = some pFutureW ∧
    ¬ pFutureW.meta.date < 100 ∧
    (∀ q ∈ corpusW.posts, q.meta.date < 100) ∧
    ((∀ q ∈ corpusW.posts, q.name ≠ "c") ∧
     (∀ q ∈ corpusW.latest, q.name ≠ "c") ∧
     (∀ y ms, (y, ms) ∈ corpusW.archive → ∀ mo b, (mo, b) ∈ ms →
       ∀ q ∈ b, q.name ≠ "c") ∧
     (∀ t b, (t, b) ∈ corpusW.tagged → ∀ q ∈ b, q.name ≠ "c")) :=
  ⟨rfl, by decide,
   (C4_publish_filter envW o1 fsW 100 corpusW rfl).1,
   (C4_publish_filter envW o1 fsW 100 corpusW rfl).2 "c" pFutureW rfl
     (by decide)⟩

/-- C10: a post assembled only from body files (every recognized file whose
stripped identifier is `n` carries a body extension, so no metadata overlay
supplies a date) keeps the default date, which equals the run time exactly;
because publishing requires a date strictly before the run time, the post
stays in the identifier map but appears in none of `posts`, `latest`,
`archive` or `tagged`. -/
theorem C10_body_only_default_date (env : Env) (opts : Opts) (fs : FS)
    (now : Time) (c : Corpus) (n : String) (p : Post)
    (h : readBlogSync env opts fs now = .ok c)
    (hbody : ∀ f ∈ scanFiles fs, ∀ e, extOf f = some e → validExt e = true →
      stripNumOrder ((jsSplit '.' f).headD "") = n →
      e = "html" ∨ e = "md" ∨ e = "textile" ∨ e = "txt")
    (hp : c.post.lookup n = some p) :
    p.meta.date = now ∧
    (∀ q ∈ c.posts, q.name ≠ n) ∧
    (∀ q ∈ c.latest, q.name ≠ n) ∧
    (∀ y ms, (y, ms) ∈ c.archive → ∀ mo b, (mo, b) ∈ ms →
      ∀ q ∈ b, q.name ≠ n) ∧
    (∀ t b, (t, b) ∈ c.tagged → ∀ q ∈ b, q.name ≠ n) := by
  rcases readBlogSync_ok h with ⟨m0, hm0, rfl⟩
  have hgood : goodMap m0 := processFiles_goodMap hm0
  rw [assembleCorpus_post] at hp
  have hm0' : processFilesFrom env fs now (scanFiles fs) [] = .ok m0 := hm0
  have hinv : ∀ kv ∈ m0, kv.1 = n → kv.2.meta.date = now :=
    processFilesFrom_dateInv (scanFiles fs) [] m0 (by simp) hbody hm0'
  have hmem := mem_of_lookup hp
  unfold normMap at hmem
  rcases List.mem_map.mp hmem with ⟨kv0, hkv0, heq⟩
  have hk1 : kv0.1 = n := congrArg Prod.fst heq
  have hp2 : normalizePost env kv0.2 = p := congrArg Prod.snd heq
  have hdate0 : kv0.2.meta.date = now := hinv kv0 hkv0 hk1
  have hdate : p.meta.date = now := by
    rw [← hp2]
    exact hdate0
  have hd : ¬ p.meta.date < now := by
    rw [hdate]
    exact lt_irrefl now
  have hne := finalPosts_name_ne hgood hp hd
  refine ⟨hdate, ?_, ?_, ?_, ?_⟩
  · intro q hq
    rw [assembleCorpus_posts] at hq
    exact hne q hq
  · intro q hq
    exact hne q (mem_latest_finalPosts hq)
  · intro y ms hy mo b hmo q hq
    exact hne q (mem_archive_finalPosts hy hmo hq)
  · intro t b ht q hq
    exact hne q (mem_tagged_finalPosts ht hq)

/-- C10 witness: in the concrete run, the body-only post "z" (`z.md` only)
keeps date = run time 100 and is excluded from every published view. -/
theorem C10_witness :
    corpusW.post.lookup "z" = some pZW ∧
    (pZW.meta.date = 100 ∧
     (∀ q ∈ corpusW.posts, q.name ≠ "z") ∧
     (∀ q ∈ corpusW.latest, q.name ≠ "z") ∧
     (∀ y ms, (y, ms) ∈ corpusW.archive → ∀ mo b, (mo, b) ∈ ms →
       ∀ q ∈ b, q.name ≠ "z") ∧
     (∀ t b, (t, b) ∈ corpusW.tagged → ∀ q ∈ b, q.name ≠ "z")) := by
  have hbody : ∀ f ∈ scanFiles fsW, ∀ e, extOf f = some e →
      validExt e = true → stripNumOrder ((jsSplit '.' f).headD "") = "z" →
      e = "html" ∨ e = "md" ∨ e = "textile" ∨ e = "txt" := by
    intro f hf e he hv hn
    have hf2 : f = "a.json" ∨ f = "b.json" ∨ f = "c.json" ∨ f = "z.md" := by
      simpa [scanFiles, fsW] using hf
    rcases hf2 with rfl | rfl | rfl | rfl
    · exact absurd hn (by decide)
    · exact absurd hn (by decide)
    · exact absurd hn (by decide)
    · have he2 : some "md" = some e := he
      injection he2 with he2
      subst he2
      exact Or.inr (Or.inl rfl)
  exact ⟨rfl,
    C10_body_only_default_date envW o1 fsW 100 corpusW "z" pZW rfl hbody rfl⟩

/-! ### Index-level lemmas for the linked sequence -/

theorem linkAt_meta (ps : List Post) (i : Nat) (p : Post) :
    (linkAt ps i p).meta = p.meta := rfl

theorem linkAt_name (ps : List Post) (i : Nat) (p : Post) :
    (linkAt ps i p).name = p.name := rfl

theorem linkAt_next (ps : List Post) (i : Nat) (p : Post) :
    (linkAt ps i p).next = (ps[i+1]?).map Post.name := rfl

theorem linkAt_prev (ps : List Post) (i : Nat) (p : Post) :
    (linkAt ps i p).prev =
      if i = 0 then none else (ps[i-1]?).map Post.name := rfl

theorem length_finalPosts (env : Env) (now : Time) (m0 : PostMap) :
    (finalPosts env now m0).length = (sortedPosts env now m0).length :=
  length_linkPosts _

theorem getElem_finalPosts (env : Env) (now : Time) (m0 : PostMap) (i : Nat)
    (hi : i < (finalPosts env now m0).length) :
    (finalPosts env now m0).get ⟨i, hi⟩ =
      linkAt (sortedPosts env now m0) i
        ((sortedPosts env now m0).get ⟨i, by
          rw [← length_finalPosts env now m0]
          exact hi⟩) := by
  unfold finalPosts at hi ⊢
  rw [List.get_eq_getElem, getElem_linkPosts]

theorem sortedPosts_dates_mono (env : Env) (now : Time) (m0 : PostMap)
    {i j : Nat} (hij : i ≤ j) (hj : j < (sortedPosts env now m0).length) :
    dateLE ((sortedPosts env now m0).get ⟨i, lt_of_le_of_lt hij hj⟩)
      ((sortedPosts env now m0).get ⟨j, hj⟩) = true := by
  rcases Nat.lt_or_ge i j with hlt | hge
  · have hp := sortedPosts_pairwise env now m0
    rw [List.pairwise_iff_getElem] at hp
    have h2 := hp i j (lt_of_le_of_lt hij hj) hj hlt
    simpa [List.get_eq_getElem] using h2
  · have heq : i = j := le_antisymm hij hge
    subst heq
    exact dateLE_refl _

theorem dateLE_linkAt (ps qs : List Post) (i j : Nat) (p q : Post) :
    dateLE (linkAt ps i p) (linkAt qs j q) = dateLE p q := rfl

theorem finalPosts_dates_mono (env : Env) (now : Time) (m0 : PostMap)
    {i j : Nat} (hij : i ≤ j) (hj : j < (finalPosts env now m0).length) :
    dateLE ((finalPosts env now m0).get ⟨i, lt_of_le_of_lt hij hj⟩)
      ((finalPosts env now m0).get ⟨j, hj⟩) = true := by
  rw [getElem_finalPosts, getElem_finalPosts, dateLE_linkAt]
  exact sortedPosts_dates_mono env now m0 hij
    (by rw [← length_finalPosts env now m0]; exact hj)

/-- C3 counterexample: with two published posts dated 1 January -2000 and
1 January -1000 (UTC), the comparator orders the expanded-format ISO texts
"-001000-..." before "-002000-...", so `posts` places the year -1000 post
first: the adjacent pair has posts[0].meta.date > posts[1].meta.date,
refuting "sorted ascending by date" as stated. -/
theorem C3_counterexample :
    readBlogSync envBC o1 fsBC 100 = .ok corpusBC ∧
    corpusBC.posts.map (fun p => (p.name, p.meta.date)) =
      [("b", -93724128000000), ("a", -125281123200000)] ∧
    ¬ ((corpusBC.posts.get ⟨0, by decide⟩).meta.date ≤
       (corpusBC.posts.get ⟨1, by decide⟩).meta.date) :=
  ⟨rfl, rfl, by decide⟩

/-- C3 (amended): the published sequence `posts` is sorted ascending by
the `toISOString()` text of the dates — the order the program's comparator
(src lines 191-198) uses, which agrees with ascending date for dates in
years 0000-9999 but not for expanded-format years; each adjacent pair is
doubly linked (`posts[i].next` names `posts[i+1]` and `posts[i+1].prev`
names `posts[i]`); the first post has no `prev` and the last has no
`next`. -/
theorem C3_sorted_adjacent (env : Env) (opts : Opts) (fs : FS) (now : Time)
    (c : Corpus) (h : readBlogSync env opts fs now = .ok c) :
    (∀ i (hi : i + 1 < c.posts.length),
      dateLE (c.posts.get ⟨i, Nat.lt_of_succ_lt hi⟩)
        (c.posts.get ⟨i + 1, hi⟩) = true ∧
      (c.posts.get ⟨i, Nat.lt_of_succ_lt hi⟩).next =
        some (c.posts.get ⟨i + 1, hi⟩).name ∧
      (c.posts.get ⟨i + 1, hi⟩).prev =
        some (c.posts.get ⟨i, Nat.lt_of_succ_lt hi⟩).name) ∧
    (∀ h0 : 0 < c.posts.length, (c.posts.get ⟨0, h0⟩).prev = none) ∧
    (∀ h0 : 0 < c.posts.length,
      (c.posts.get ⟨c.posts.length - 1, Nat.sub_lt h0 Nat.one_pos⟩).next =
        none) := by
  rcases readBlogSync_ok h with ⟨m0, hm0, rfl⟩
  simp only [assembleCorpus_posts]
  have hlen := length_finalPosts env now m0
  refine ⟨?_, ?_, ?_⟩
  · intro i hi
    have hs2 : i + 1 < (sortedPosts env now m0).length := by omega
    have hs1 : i < (sortedPosts env now m0).length := by omega
    refine ⟨finalPosts_dates_mono env now m0 (Nat.le_succ i) hi, ?_, ?_⟩
    · rw [getElem_finalPosts, getElem_finalPosts, linkAt_next, linkAt_name]
      rw [List.getElem?_eq_getElem hs2]
      simp
    · rw [getElem_finalPosts, getElem_finalPosts, linkAt_prev, linkAt_name]
      rw [if_neg (Nat.succ_ne_zero i)]
      rw [show i + 1 - 1 = i from rfl]
      rw [List.getElem?_eq_getElem hs1]
      simp
  · intro h0
    rw [getElem_finalPosts, linkAt_prev]
    rw [if_pos rfl]
  · intro h0
    rw [getElem_finalPosts, linkAt_next]
    have hL : (finalPosts env now m0).length - 1 + 1 =
        (sortedPosts env now m0).length := by omega
    rw [hL]
    rw [List.getElem?_eq_none (le_refl _)]
    rfl

/-- C3 witness: the adjacency and ordering conclusions at the concrete run
(two published posts, dates 20 and 50). -/
theorem C3_witness :
    (∀ i (hi : i + 1 < corpusW.posts.length),
      dateLE (corpusW.posts.get ⟨i, Nat.lt_of_succ_lt hi⟩)
        (corpusW.posts.get ⟨i + 1, hi⟩) = true ∧
      (corpusW.posts.get ⟨i, Nat.lt_of_succ_lt hi⟩).next =
        some (corpusW.posts.get ⟨i + 1, hi⟩).name ∧
      (corpusW.posts.get ⟨i + 1, hi⟩).prev =
        some (corpusW.posts.get ⟨i, Nat.lt_of_succ_lt hi⟩).name) ∧
    (∀ h0 : 0 < corpusW.posts.length,
      (corpusW.posts.get ⟨0, h0⟩).prev = none) ∧
    (∀ h0 : 0 < corpusW.posts.length,
      (corpusW.posts.get ⟨corpusW.posts.length - 1,
        Nat.sub_lt h0 Nat.one_pos⟩).next = none) :=
  C3_sorted_adjacent envW o1 fsW 100 corpusW rfl

/-- C5 counterexample: in the same expanded-year run, `latest` (the
reversal of `posts`) places the year -2000 post first, so the adjacent
pair has latest[0].meta.date < latest[1].meta.date, refuting "latest is
descending by date" as stated. -/
theorem C5_counterexample :
    readBlogSync envBC o1 fsBC 100 = .ok corpusBC ∧
    corpusBC.latest.map (fun p => (p.name, p.meta.date)) =
      [("a", -125281123200000), ("b", -93724128000000)] ∧
    ¬ ((corpusBC.latest.get ⟨1, by decide⟩).meta.date ≤
       (corpusBC.latest.get ⟨0, by decide⟩).meta.date) :=
  ⟨rfl, rfl, by decide⟩

/-- C5 (amended): `latest` is exactly the reversal of `posts` truncated
to the configured `latestCount` (default 10); its length is the minimum
of that count and the number of published posts; and it is descending by
the `toISOString()` text of the dates — the comparator's order, which
agrees with descending date for dates in years 0000-9999 but not for
expanded-format years. -/
theorem C5_latest_reverse_take (env : Env) (opts : Opts) (fs : FS)
    (now : Time) (c : Corpus) (h : readBlogSync env opts fs now = .ok c) :
    c.latest = c.posts.reverse.take (opts.latestCount.getD 10) ∧
    c.latest.length = min (opts.latestCount.getD 10) c.posts.length ∧
    ∀ i (hi : i + 1 < c.latest.length),
      dateLE (c.latest.get ⟨i + 1, hi⟩)
        (c.latest.get ⟨i, Nat.lt_of_succ_lt hi⟩) = true := by
  rcases readBlogSync_ok h with ⟨m0, hm0, rfl⟩
  refine ⟨rfl, ?_, ?_⟩
  · rw [assembleCorpus_latest, assembleCorpus_posts, List.length_take,
      List.length_reverse]
  · intro i hi
    have hiL : i + 1 < ((finalPosts env now m0).reverse.take
        (opts.latestCount.getD 10)).length := hi
    have hmin : i + 1 < (finalPosts env now m0).length := by
      rw [List.length_take, List.length_reverse] at hiL
      exact (lt_min_iff.mp hiL).2
    have hL0 : 0 < (finalPosts env now m0).length := by omega
    have e1 : (assembleCorpus env opts now m0).latest.get ⟨i + 1, hi⟩ =
        (finalPosts env now m0).get
          ⟨(finalPosts env now m0).length - 1 - (i + 1), by omega⟩ := by
      show ((finalPosts env now m0).reverse.take
        (opts.latestCount.getD 10)).get ⟨i + 1, hiL⟩ = _
      rw [List.get_eq_getElem, List.getElem_take, List.getElem_reverse,
        List.get_eq_getElem]
    have e2 : (assembleCorpus env opts now m0).latest.get
          ⟨i, Nat.lt_of_succ_lt hi⟩ =
        (finalPosts env now m0).get
          ⟨(finalPosts env now m0).length - 1 - i, by omega⟩ := by
      show ((finalPosts env now m0).reverse.take
        (opts.latestCount.getD 10)).get ⟨i, Nat.lt_of_succ_lt hiL⟩ = _
      rw [List.get_eq_getElem, List.getElem_take, List.getElem_reverse,
        List.get_eq_getElem]
    rw [e1, e2]
    exact finalPosts_dates_mono env now m0 (by omega) (by omega)

/-- C5 witness: the `latest` relations at the concrete run. -/
theorem C5_witness :
    corpusW.latest = corpusW.posts.reverse.take (o1.latestCount.getD 10) ∧
    corpusW.latest.length =
      min (o1.latestCount.getD 10) corpusW.posts.length ∧
    ∀ i (hi : i + 1 < corpusW.latest.length),
      dateLE (corpusW.latest.get ⟨i + 1, hi⟩)
        (corpusW.latest.get ⟨i, Nat.lt_of_succ_lt hi⟩) = true :=
  C5_latest_reverse_take envW o1 fsW 100 corpusW rfl

/-- C7: if the scanned input contains a JSON metadata file whose contents
the JSON decoder rejects, the build aborts: no corpus record is returned,
and the result is a decode error carrying the offending filename — a
scanned file whose decode genuinely fails (the first such file encountered,
which can also be a failing YAML file listed earlier). -/
theorem C7_json_decode_fatal (env : Env) (opts : Opts) (fs : FS) (now : Time)
    (f : String) (msg : String)
    (hdom : ¬ opts.domain.getD "" = "")
    (hdir : ¬ opts.contentDir.getD "" = "")
    (hf : f ∈ scanFiles fs) (hext : extOf f = some "json")
    (hfail : env.jsonParse (fs.read f) = .error msg) :
    (∀ c, readBlogSync env opts fs now ≠ .ok c) ∧
    ∃ e, readBlogSync env opts fs now = .error e ∧
      ∃ g emsg, g ∈ scanFiles fs ∧
        ((e = .jsonDecode g emsg ∧ extOf g = some "json" ∧
          env.jsonParse (fs.read g) = .error emsg) ∨
         (e = .yamlDecode g emsg ∧ extOf g = some "yaml" ∧
          env.yamlLoad (fs.read g) = .error emsg)) := by
  cases hres : processFiles env fs now (scanFiles fs) with
  | ok m0 =>
      have hres' : processFilesFrom env fs now (scanFiles fs) [] = .ok m0 :=
        hres
      exact absurd hfail
        (processFilesFrom_ok_no_jsonError (scanFiles fs) [] m0 hres' f hf
          hext msg)
  | error e =>
      have hrb := readBlogSync_processError hdom hdir hres
      constructor
      · intro c hc
        rw [hrb] at hc
        cases hc
      · refine ⟨e, hrb, ?_⟩
        have hres' : processFilesFrom env fs now (scanFiles fs) [] =
            .error e := hres
        rcases processFilesFrom_error_shape (scanFiles fs) [] e hres' with
          ⟨g, hg, hsh⟩
        rcases hsh with ⟨m1, he, hx, hp⟩ | ⟨m1, he, hx, hp⟩
        · exact ⟨g, m1, hg, Or.inl ⟨he, hx, hp⟩⟩
        · exact ⟨g, m1, hg, Or.inr ⟨he, hx, hp⟩⟩

/-- C7 witness: the abort on the concrete malformed `bad.json`. -/
theorem C7_witness :
    "bad.json" ∈ scanFiles fsC7 ∧
    extOf "bad.json" = some "json" ∧
    envW.jsonParse (fsC7.read "bad.json") = .error "Unexpected token B" ∧
    ((∀ c, readBlogSync envW o1 fsC7 100 ≠ .ok c) ∧
     ∃ e, readBlogSync envW o1 fsC7 100 = .error e ∧
       ∃ g emsg, g ∈ scanFiles fsC7 ∧
         ((e = .jsonDecode g emsg ∧ extOf g = some "json" ∧
           envW.jsonParse (fsC7.read g) = .error emsg) ∨
          (e = .yamlDecode g emsg ∧ extOf g = some "yaml" ∧
           envW.yamlLoad (fsC7.read g) = .error emsg))) :=
  ⟨by decide, rfl, rfl,
   C7_json_decode_fatal envW o1 fsC7 100 "bad.json" "Unexpected token B"
     (by decide) (by decide) (by decide) rfl rfl⟩

/-- C6: given the two files `01-hello.md` (contents "World") and
`hello.json` (decoding to the overlay with title "Hi" and tags ["x"]), the
corpus contains exactly one post, keyed "hello" (the ordering prefix of the
markdown file is stripped), with name "hello", title "Hi", tags ["x"],
content "World" and html the markdown renderer applied to "World". -/
theorem C6_merge_example (env : Env) (fs : FS) (now : Time) (c : Corpus)
    (hl : fs.listing = ["01-hello.md", "hello.json"])
    (hdirs : ∀ f, fs.isDir f = false)
    (hmd : fs.read "01-hello.md" = "World")
    (hjs : env.jsonParse (fs.read "hello.json") = .ok ovHi)
    (h : readBlogSync env o1 fs now = .ok c) :
    c.post = [("hello",
      { name := "hello"
        meta := { title := "Hi", date := now, year := env.fmtYYYY now,
                  month := env.fmtMM now, day := env.fmtDD now,
                  monthname := env.fmtMMMM now, tags := ["x"] }
        content := "World"
        html := env.marked "World" })] := by
  rcases readBlogSync_ok h with ⟨m0, hm0, rfl⟩
  rw [assembleCorpus_post]
  have hscan : scanFiles fs = ["01-hello.md", "hello.json"] := by
    simp [scanFiles, hl, hdirs]
  rw [hscan] at hm0
  have e1 : processFile env fs now [] "01-hello.md" =
      .ok [("hello", { defaultPost env now "hello" with
        content := fs.read "01-hello.md",
        html := env.marked (fs.read "01-hello.md") })] := rfl
  have e2 : processFile env fs now
      [("hello", { defaultPost env now "hello" with
        content := fs.read "01-hello.md",
        html := env.marked (fs.read "01-hello.md") })] "hello.json" =
      (match env.jsonParse (fs.read "hello.json") with
       | .ok o => .ok (updatePost
           [("hello", { defaultPost env now "hello" with
             content := fs.read "01-hello.md",
             html := env.marked (fs.read "01-hello.md") })] "hello"
           fun p => { p with meta := mergeMeta p.meta o })
       | .error e => .error (.jsonDecode "hello.json" e)) := rfl
  rw [hjs] at e2
  have hstep : processFilesFrom env fs now ["01-hello.md", "hello.json"] [] =
      processFilesFrom env fs now ["hello.json"]
        [("hello", { defaultPost env now "hello" with
          content := fs.read "01-hello.md",
          html := env.marked (fs.read "01-hello.md") })] := by
    show (match processFile env fs now [] "01-hello.md" with
          | .ok m' => processFilesFrom env fs now ["hello.json"] m'
          | .error e => .error e) = _
    rw [e1]
  have hstep2 : processFilesFrom env fs now ["hello.json"]
      [("hello", { defaultPost env now "hello" with
        content := fs.read "01-hello.md",
        html := env.marked (fs.read "01-hello.md") })] =
      .ok (updatePost
        [("hello", { defaultPost env now "hello" with
          content := fs.read "01-hello.md",
          html := env.marked (fs.read "01-hello.md") })] "hello"
        fun p => { p with meta := mergeMeta p.meta ovHi }) := by
    show (match processFile env fs now
          [("hello", { defaultPost env now "hello" with
            content := fs.read "01-hello.md",
            html := env.marked (fs.read "01-hello.md") })] "hello.json" with
          | .ok m' => processFilesFrom env fs now [] m'
          | .error e => .error e) = _
    rw [e2]
    rfl
  have hm0' : processFilesFrom env fs now ["01-hello.md", "hello.json"] [] =
      .ok m0 := hm0
  rw [hstep, hstep2] at hm0'
  injection hm0' with hm0'
  rw [← hm0']
  rw [hmd]
  rfl

/-- C6 witness: the merge example at concrete collaborators, contents and
run time. -/
theorem C6_witness :
    fsC6.listing = ["01-hello.md", "hello.json"] ∧
    (∀ f, fsC6.isDir f = false) ∧
    fsC6.read "01-hello.md" = "World" ∧
    envW.jsonParse (fsC6.read "hello.json") = .ok ovHi ∧
    corpusC6.post = [("hello",
      { name := "hello"
        meta := { title := "Hi", date := 100, year := envW.fmtYYYY 100,
                  month := envW.fmtMM 100, day := envW.fmtDD 100,
                  monthname := envW.fmtMMMM 100, tags := ["x"] }
        content := "World"
        html := envW.marked "World" })] :=
  ⟨rfl, fun _ => rfl, rfl, rfl,
   C6_merge_example envW fsC6 100 corpusC6 rfl (fun _ => rfl) rfl rfl rfl⟩

end Blogz
